import Mathlib

/-!
Shallow embedding of the Line Learner practice-session code (src/index.tsx):
script parsing, accuracy scoring, cursor advancing with loop ranges,
settings persistence, pronunciation substitution, recognition callbacks and
the roster-consistency update of the selected character.

Strings are modeled as `List Char`; character case mapping is modeled with
`Char.toUpper`/`Char.toLower` (faithful on ASCII, which the source regexes
`[A-Z0-9\s_'-]` and `[^\w\s]` are restricted to anyway).
-/

/-- The apostrophe character, used in the source line-token character class. -/
def apos : Char := Char.ofNat 39

/-- Newline. -/
def nlChar : Char := Char.ofNat 10

/-- JavaScript whitespace: the character set matched by the regex class `\s`
and stripped by `String.prototype.trim`. -/
def isJsSpace (c : Char) : Bool :=
  c == ' ' || c == Char.ofNat 9 || c == Char.ofNat 10 || c == Char.ofNat 11 ||
  c == Char.ofNat 12 || c == Char.ofNat 13 || c == Char.ofNat 0xa0 ||
  c == Char.ofNat 0x1680 || (0x2000 ≤ c.toNat && c.toNat ≤ 0x200a) ||
  c == Char.ofNat 0x2028 || c == Char.ofNat 0x2029 || c == Char.ofNat 0x202f ||
  c == Char.ofNat 0x205f || c == Char.ofNat 0x3000 || c == Char.ofNat 0xfeff

/-- `String.prototype.trim`: strip leading and trailing JS whitespace. -/
def jsTrim (l : List Char) : List Char :=
  ((l.dropWhile isJsSpace).reverse.dropWhile isJsSpace).reverse

/-- `String.prototype.split(sep)` for a one-character separator: every
occurrence of `sep` separates fields, so `""` splits to `[""]` and a
trailing separator yields a trailing empty field. -/
def splitOnChar (sep : Char) (l : List Char) : List (List Char) :=
  l.foldr
    (fun c acc =>
      if c == sep then [] :: acc
      else
        match acc with
        | a :: as => (c :: a) :: as
        | [] => [[c]])
    [[]]

/-- `String.prototype.toUpperCase`, modeled on ASCII. -/
def upperStr (l : List Char) : List Char := l.map Char.toUpper

/-- `String.prototype.toLowerCase`, modeled on ASCII. -/
def lowerStr (l : List Char) : List Char := l.map Char.toLower

/-! ## ScriptParser (src/index.tsx, script parsing effect, lines 153-171) -/

/-- The character class `[A-Z0-9\s_'-]` of `lineRegex`: uppercase letters,
digits, JS whitespace, underscore, apostrophe, hyphen.  The regex is built
without the `i` flag, so lowercase letters are not in the class. -/
def lineTokenChar (c : Char) : Bool :=
  ('A' ≤ c && c ≤ 'Z') || ('0' ≤ c && c ≤ '9') || isJsSpace c ||
  c == '_' || c == apos || c == '-'

/-- One parsed script line: `{ character, dialogue, direction }`. -/
structure LineEntry where
  character : List Char
  dialogue : List Char
  direction : List Char
  deriving DecidableEq, Repr

/-- The structured match `^([A-Z0-9\s_'-]+):\s*(?:\((.*?)\)\s*)?(.*)$` of
`lineRegex` applied to a single (newline-free) line.  Because `:` is not in
the token class, the regex matches exactly when the maximal token-class
prefix is non-empty and is immediately followed by `:`.  The optional
parenthetical group takes the lazily-shortest direction, i.e. the text up to
the first `)`; when no `)` follows the `(`, the group fails and the whole
remainder becomes the dialogue.  All captured parts are trimmed, the
character token is uppercased, a missing direction becomes the empty string
(`match[2]?.trim() || ''`). -/
def lineRegexMatch (l : List Char) : Option LineEntry :=
  let tok := l.takeWhile lineTokenChar
  if tok.isEmpty then none
  else
    match l.drop tok.length with
    | ':' :: rest =>
      let r2 := rest.dropWhile isJsSpace
      match r2 with
      | '(' :: r3 =>
        if r3.contains ')' then
          let dir := r3.takeWhile (fun c => c != ')')
          let afterClose := (r3.dropWhile (fun c => c != ')')).tail
          some { character := upperStr (jsTrim tok)
                 dialogue := jsTrim (afterClose.dropWhile isJsSpace)
                 direction := jsTrim dir }
        else
          some { character := upperStr (jsTrim tok)
                 dialogue := jsTrim r2
                 direction := [] }
      | _ =>
        some { character := upperStr (jsTrim tok)
               dialogue := jsTrim r2
               direction := [] }
    | _ => none

/-- The fallback branch: `const [character, ...dialogueParts] = line.split(':')`
with `dialogue = dialogueParts.join(':').trim()` and an empty direction. -/
def fallbackParse (l : List Char) : LineEntry :=
  match splitOnChar ':' l with
  | [] => { character := [], dialogue := [], direction := [] }
  | c :: rest =>
    { character := upperStr (jsTrim c)
      dialogue := jsTrim (List.intercalate [':'] rest)
      direction := [] }

/-- Parsing of one trimmed, colon-containing line: the structured regex
match when it succeeds, the fallback split otherwise. -/
def parseLine (l : List Char) : LineEntry :=
  (lineRegexMatch l).getD (fallbackParse l)

/-- `line.includes(':')`. -/
def hasColon (l : List Char) : Bool := l.contains ':'

/-- `Array.from(new Set(xs))`: deduplication keeping the first appearance
of each element, in order. -/
def jsSetDedup (l : List (List Char)) : List (List Char) :=
  l.foldl (fun acc x => if x ∈ acc then acc else acc ++ [x]) []

/-- The parser's result: the ordered line entries and the derived roster. -/
structure ScriptModel where
  lines : List LineEntry
  roster : List (List Char)
  deriving Repr

/-- The script parsing effect: split on newline, trim each line, keep the
lines containing a colon, parse each (the source's trailing
`.filter(Boolean)` keeps every entry since the mapped objects are all
truthy), and derive the roster with a JS `Set`. -/
def parseScript (text : String) : ScriptModel :=
  let parsedLines :=
    (((splitOnChar nlChar text.data).map jsTrim).filter hasColon).map parseLine
  { lines := parsedLines
    roster := jsSetDedup (parsedLines.map LineEntry.character) }

/-- Reference (spec-side) first-appearance deduplication: keep the head,
drop its later duplicates, recurse. -/
def firstDedup : List (List Char) → List (List Char)
  | [] => []
  | x :: l => x :: firstDedup (l.filter (fun y => y != x))
  termination_by l => l.length
  decreasing_by
    simp only [List.length_cons]
    exact Nat.lt_succ_of_le (List.length_filter_le _ _)

/-! ## AccuracyScorer (`calculateAccuracy`, src/index.tsx lines 251-265) -/

/-- The regex class `\w` (no `u` flag): ASCII letters (codes 97-122 and
65-90), digits (48-57), underscore (95). -/
def isWordCharJs (c : Char) : Bool :=
  (97 ≤ c.toNat && c.toNat ≤ 122) || (65 ≤ c.toNat && c.toNat ≤ 90) ||
  (48 ≤ c.toNat && c.toNat ≤ 57) || c.toNat == 95

/-- `.split(/\s+/).filter(Boolean)`: split on whitespace runs and drop the
empty fields. -/
def splitWs (l : List Char) : List (List Char) :=
  (l.foldr
    (fun c acc =>
      if isJsSpace c then [] :: acc
      else
        match acc with
        | a :: as => (c :: a) :: as
        | [] => [[c]])
    [[]]).filter (fun w => !w.isEmpty)

/-- `s.toLowerCase().replace(/[^\w\s]/g, '').split(/\s+/).filter(Boolean)`. -/
def normalizeWords (s : String) : List (List Char) :=
  splitWs ((lowerStr s.data).filter (fun c => isWordCharJs c || isJsSpace c))

/-- Per-word verdict of the accuracy report. -/
inductive Status where
  | correct
  | incorrect
  | missing
  deriving DecidableEq, Repr

/-- The scoring loop: for each report entry (initialized `missing`), if the
transcript cursor is in range and the transcript word there equals the
expected word, mark `correct` and advance the cursor, otherwise mark
`incorrect` and leave the cursor unchanged. -/
def scoreLoop (tws : List (List Char)) :
    List (List Char × Status) → Nat → List (List Char × Status)
  | [], _ => []
  | (w, _) :: rest, tIdx =>
    if tIdx < tws.length && (tws.getD tIdx []) == w then
      (w, Status.correct) :: scoreLoop tws rest (tIdx + 1)
    else
      (w, Status.incorrect) :: scoreLoop tws rest tIdx

/-- `calculateAccuracy(original, transcript)`: normalize both strings, build
the report with every entry defaulted to `missing`, then run the
unconditional assignment loop over every expected word. -/
def calculateAccuracy (original transcript : String) : List (List Char × Status) :=
  let originalWords := normalizeWords original
  let transcriptWords := normalizeWords transcript
  let report := originalWords.map (fun w => (w, Status.missing))
  scoreLoop transcriptWords report 0

/-! ## TurnEngine cursor advancing (`advanceLine`, src/index.tsx lines 200-210)

The loop bounds live in the component state as strings (`loopStartLine`,
`loopEndLine`); `advanceLine` treats an empty (falsy) string as absent and
otherwise uses `parseInt`.  A non-numeric string parses to `NaN`, whose
comparisons are all false, which coincides with the absent case; both are
modeled as `none`. -/

/-- `const start = loopStartLine ? parseInt(loopStartLine) - 1 : -1`. -/
def parsedStart : Option Int → Int
  | some s => s - 1
  | none => -1

/-- `const end = loopEndLine ? parseInt(loopEndLine) : -1`. -/
def parsedEnd : Option Int → Int
  | some e => e
  | none => -1

/-- `advanceLine`: increment the cursor; when the parsed 1-based start is
positive (`start >= 0` after the `- 1` shift) and the parsed exclusive end is
positive and the incremented cursor reaches or exceeds it, reset to the
0-based start instead. -/
def advanceLine (prev : Int) (loopStartLine loopEndLine : Option Int) : Int :=
  let nextIndex := prev + 1
  let start := parsedStart loopStartLine
  let stop := parsedEnd loopEndLine
  if start ≥ 0 && stop > 0 && nextIndex ≥ stop then start else nextIndex

/-! ## SessionSettings persistence (src/index.tsx lines 72-104)

The save effect serializes exactly the thirteen settings fields to JSON;
the load effect parses them back and fills each field with a default using
`||` (for the two booleans, `??`).  JSON round-trips every field type used
here losslessly, so persistence itself is modeled as the identity and the
load-time defaulting is the interesting part: `x || d` replaces falsy
values, i.e. the empty string and the number 0, not just missing fields. -/

structure SessionSettings where
  script : String
  pronunciations : String
  selectedCharacter : String
  characterVoices : List (String × String)
  speechRate : Rat
  pitch : Rat
  volume : Rat
  selectedLang : String
  isAccuracyCheckEnabled : Bool
  practiceMode : String
  isRecordAndPlaybackEnabled : Bool
  loopStartLine : String
  loopEndLine : String
  deriving DecidableEq, Repr

/-- JS `x || d` on strings: the empty string is falsy. -/
def jsOrString (v d : String) : String := if v = "" then d else v

/-- JS `x || d` on numbers: 0 is falsy. -/
def jsOrNum (v d : Rat) : Rat := if v = 0 then d else v

/-- The save effect: write the thirteen fields unchanged. -/
def saveSettings (s : SessionSettings) : SessionSettings := s

/-- The load effect applied to a stored settings object in which every field
is present: each setter receives `settings.f || default` (`?? default` for
the booleans, which only replaces null/undefined and therefore keeps any
present boolean; an object, even empty, is truthy, so `characterVoices`
is kept as-is). -/
def loadSettings (s : SessionSettings) : SessionSettings :=
  { script := jsOrString s.script ""
    pronunciations := jsOrString s.pronunciations ""
    selectedCharacter := jsOrString s.selectedCharacter ""
    characterVoices := s.characterVoices
    speechRate := jsOrNum s.speechRate 1
    pitch := jsOrNum s.pitch 1
    volume := jsOrNum s.volume 1
    selectedLang := jsOrString s.selectedLang "en-US"
    isAccuracyCheckEnabled := s.isAccuracyCheckEnabled
    practiceMode := jsOrString s.practiceMode "dialogue"
    isRecordAndPlaybackEnabled := s.isRecordAndPlaybackEnabled
    loopStartLine := jsOrString s.loopStartLine ""
    loopEndLine := jsOrString s.loopEndLine "" }

/-! ## PronunciationMap (src/index.tsx lines 143-150 and 227-228)

`processLine` rewrites the dialogue with
`dialogueToSpeak.replace(new RegExp("\\b" + w + "\\b", 'gi'), p)` for each
map entry, in insertion order.  The key `w` is interpolated into the pattern
unescaped, so its characters are interpreted as regex syntax.  The model
below interprets a key character as the regex engine does for the two kinds
of atoms that occur in this development: `.` matches any character and every
other character matches itself case-insensitively (keys containing other
metacharacters, or the empty key, are handled by the separate branches
noted on `replaceWordAll`). -/

/-- One pattern atom of the interpolated key: `.` is a wildcard, anything
else matches case-insensitively (the `i` flag). -/
def patCharMatches (p c : Char) : Bool :=
  if p == '.' then true else p.toLower == c.toLower

/-- Does the interpolated key match a prefix of the subject? -/
def matchesAt : List Char → List Char → Bool
  | [], _ => true
  | _ :: _, [] => false
  | p :: ps, c :: cs => patCharMatches p c && matchesAt ps cs

/-- Is an optional character a `\w` character (absent counts as no)? -/
def isWordOpt : Option Char → Bool
  | none => false
  | some c => isWordCharJs c

/-- The `\b` assertion between two adjacent positions. -/
def boundaryB (a b : Option Char) : Bool := isWordOpt a != isWordOpt b

/-- The global scan of `String.prototype.replace` with pattern
`\b KEY \b` (KEY non-empty, split as `k0 :: ks`): at each position, if the
key matches and both boundary assertions hold, emit the replacement and
continue after the matched text; otherwise emit one character and move on.
`prev` is the subject character just before the current position. -/
def replaceScan (k0 : Char) (ks val : List Char) (prev : Option Char) :
    List Char → List Char
  | [] => []
  | c :: cs =>
    if matchesAt (k0 :: ks) (c :: cs) && boundaryB prev (some c) &&
        boundaryB (((c :: cs).take (ks.length + 1)).getLast?)
          (((c :: cs).drop (ks.length + 1)).head?) then
      val ++ replaceScan k0 ks val (((c :: cs).take (ks.length + 1)).getLast?)
        (cs.drop ks.length)
    else
      c :: replaceScan k0 ks val (some c) cs
  termination_by l => l.length
  decreasing_by
    · simp only [List.length_cons, List.length_drop]
      omega
    · simp only [List.length_cons]
      omega

/-- For the empty key the pattern is `\b\b`: an empty match at every word
boundary, inserting the replacement there (the `g` scan advances one
character after an empty match). -/
def emptyKeyScan (val : List Char) (prev : Option Char) : List Char → List Char
  | [] => if boundaryB prev none then val else []
  | c :: cs =>
    (if boundaryB prev (some c) then val else []) ++ c :: emptyKeyScan val (some c) cs

/-- `dialogue.replace(new RegExp("\\b" + key + "\\b", 'gi'), val)`. -/
def replaceWordAll (key val s : List Char) : List Char :=
  match key with
  | [] => emptyKeyScan val none s
  | k0 :: ks => replaceScan k0 ks val none s

/-- JS `Map.prototype.set`: overwriting an existing key keeps its original
position; a new key is appended. -/
def mapSet (m : List (List Char × List Char)) (k v : List Char) :
    List (List Char × List Char) :=
  match m with
  | [] => [(k, v)]
  | (k1, v1) :: rest => if k1 = k then (k, v) :: rest else (k1, v1) :: mapSet rest k v

/-- The pronunciation map effect: split the text on newline, skip blank
lines, split each remaining line on `=`; with at least two parts the first
part trimmed is the key and the rest re-joined with `=` and trimmed is the
value. -/
def buildPronunciationMap (text : String) : List (List Char × List Char) :=
  ((splitOnChar nlChar text.data).filter (fun l => !(jsTrim l).isEmpty)).foldl
    (fun m l =>
      match splitOnChar '=' l with
      | p :: q :: rest => mapSet m (jsTrim p) (jsTrim (List.intercalate ['='] (q :: rest)))
      | _ => m)
    []

/-- The rewrite in `processLine`: fold the whole-word replacement over the
map entries in insertion order. -/
def applyPronunciations (m : List (List Char × List Char)) (s : List Char) :
    List Char :=
  m.foldl (fun acc kv => replaceWordAll kv.1 kv.2 acc) s

/-! ## Recognition callbacks (`startRecognition`, src/index.tsx lines 267-302)
and the selected-character update of the parsing effect (lines 164-171) -/

/-- The part of the component state the recognition callbacks touch. -/
structure EngineState where
  status : String
  isPracticing : Bool
  currentLineIndex : Int
  loopStartLine : Option Int
  loopEndLine : Option Int
  recorderRecording : Bool
  deriving DecidableEq, Repr

/-- The status message set by `recognition.onerror` for a non-abort error. -/
def errStatusMsg : String :=
  "Sorry, I didn" ++ String.singleton apos ++ "t catch that."

/-- `recognition.onerror`: on any error code other than `aborted`, set the
user-visible status message; an abort changes nothing. -/
def handleRecognitionError (st : EngineState) (errorCode : String) : EngineState :=
  if errorCode ≠ "aborted" then { st with status := errStatusMsg } else st

/-- `recognition.onend` (the provider fires it after any `onerror`): stop a
running recorder, and if still practicing schedule the single cursor advance
(the 1.5 s `setTimeout` delay is modeled as the advance itself). -/
def handleRecognitionEnd (st : EngineState) : EngineState :=
  let st1 := { st with recorderRecording := false }
  if st1.isPracticing then
    { st1 with currentLineIndex :=
        advanceLine st1.currentLineIndex st1.loopStartLine st1.loopEndLine }
  else st1

/-- The tail of the script parsing effect: if the roster is non-empty and
does not contain the previously selected character, select its first entry;
if the roster is empty, clear the selection; otherwise keep it. -/
def updateSelectedCharacter (roster : List (List Char)) (sel : List Char) :
    List Char :=
  if roster.length > 0 && !roster.contains sel then roster.headD []
  else if roster.length = 0 then []
  else sel

/-- The four JS line-terminator characters, which the regex atom `.` does
not match.  Lines fed to `parseLine` come from splitting on newline and are
terminator-free in practice; theorems about the parenthetical capture state
this domain explicitly. -/
def isLineTerm (c : Char) : Bool :=
  c == Char.ofNat 10 || c == Char.ofNat 13 || c == Char.ofNat 0x2028 ||
  c == Char.ofNat 0x2029

/-- A dialogue line assembled from words separated by single spaces (the
shape quantified over in the whole-word substitution theorem). -/
def joinWords : List (List Char) → List Char
  | [] => []
  | [w] => w
  | w :: ws => w ++ ' ' :: joinWords ws

/-! ## Claim theorems: accuracy scoring (C2, C3) -/

theorem scoreLoop_map_fst (tws : List (List Char)) :
    ∀ (rep : List (List Char × Status)) (tIdx : Nat),
      (scoreLoop tws rep tIdx).map Prod.fst = rep.map Prod.fst := by
  intro rep
  induction rep with
  | nil => intro tIdx; rfl
  | cons e rest ih =>
    intro tIdx
    obtain ⟨w, st⟩ := e
    unfold scoreLoop
    split
    · simp [ih]
    · simp [ih]

theorem scoreLoop_status (tws : List (List Char)) :
    ∀ (rep : List (List Char × Status)) (tIdx : Nat) (e : List Char × Status),
      e ∈ scoreLoop tws rep tIdx →
      e.2 = Status.correct ∨ e.2 = Status.incorrect := by
  intro rep
  induction rep with
  | nil => intro tIdx e he; simp [scoreLoop] at he
  | cons hd rest ih =>
    intro tIdx e he
    obtain ⟨w, st⟩ := hd
    unfold scoreLoop at he
    split at he
    · rcases List.mem_cons.mp he with h | h
      · left; rw [h]
      · exact ih _ _ h
    · rcases List.mem_cons.mp he with h | h
      · right; rw [h]
      · exact ih _ _ h

/-- C2: the accuracy report has exactly one entry per normalized expected
word (in order), and every entry ends up `correct` or `incorrect` — the
`missing` initialization is always overwritten by the exhaustive pass. -/
theorem c2_report_exhaustive (original transcript : String) :
    ((calculateAccuracy original transcript).map Prod.fst = normalizeWords original) ∧
    ∀ e ∈ calculateAccuracy original transcript,
      e.2 = Status.correct ∨ e.2 = Status.incorrect := by
  constructor
  · unfold calculateAccuracy
    rw [scoreLoop_map_fst, List.map_map]
    exact List.map_id _
  · intro e he
    exact scoreLoop_status _ _ _ e he

/-- Witness for C2 at a concrete input. -/
theorem c2_report_exhaustive_witness :
    ("hello".data, Status.correct).2 = Status.correct ∨
    ("hello".data, Status.correct).2 = Status.incorrect :=
  (c2_report_exhaustive "Hello there" "hello").2 ("hello".data, Status.correct)
    (by decide)

/-- C3 counterexample: on the spec's own example the sixth expected word
"be" is compared against the stuck transcript cursor word "too" and marked
`incorrect`, not `correct` as the claim states. -/
theorem c3_counterexample :
    (calculateAccuracy "To be or not to be" "to be or not too be").map Prod.snd =
      [Status.correct, Status.correct, Status.correct, Status.correct,
       Status.incorrect, Status.incorrect] ∧
    (calculateAccuracy "To be or not to be" "to be or not too be").map Prod.snd ≠
      [Status.correct, Status.correct, Status.correct, Status.correct,
       Status.incorrect, Status.correct] := by
  constructor
  · decide
  · decide

/-- C3 amended: the fifth AND sixth expected words are both marked
incorrect (after the mismatch the cursor stays on "too", so the final "be"
also fails its comparison). -/
theorem c3_amended :
    calculateAccuracy "To be or not to be" "to be or not too be" =
      [("to".data, Status.correct), ("be".data, Status.correct),
       ("or".data, Status.correct), ("not".data, Status.correct),
       ("to".data, Status.incorrect), ("be".data, Status.incorrect)] := by
  decide

/-! ## Claim theorems: advancing and loop ranges (C4, C5) -/

/-- C4: advancing increments the cursor by one, except that with a
configured loop range (both bounds parsed positive) an incremented cursor
reaching or exceeding the 1-based exclusive end resets to the 0-based
start; with lines of length 10 and LoopRange{start:3, end:6} the advances
from cursor 5 produce 5→2→3→4→5→2. -/
theorem c4_advance_rule (prev : Int) (ls le : Option Int) :
    (∀ s e, ls = some s → le = some e → 1 ≤ s → 1 ≤ e →
      (prev + 1 ≥ e → advanceLine prev ls le = s - 1) ∧
      (prev + 1 < e → advanceLine prev ls le = prev + 1)) ∧
    (ls = none ∨ le = none → advanceLine prev ls le = prev + 1) ∧
    advanceLine 5 (some 3) (some 6) = 2 ∧ advanceLine 2 (some 3) (some 6) = 3 ∧
    advanceLine 3 (some 3) (some 6) = 4 ∧ advanceLine 4 (some 3) (some 6) = 5 := by
  refine ⟨?_, ?_, by decide, by decide, by decide, by decide⟩
  · rintro s e rfl rfl hs he
    unfold advanceLine
    simp only [parsedStart, parsedEnd, Bool.and_eq_true, decide_eq_true_eq]
    constructor
    · intro h
      rw [if_pos (by omega)]
    · intro h
      rw [if_neg (by omega)]
  · intro h
    rcases h with rfl | rfl
    · unfold advanceLine
      simp only [parsedStart, parsedEnd, Bool.and_eq_true, decide_eq_true_eq]
      rw [if_neg (by omega)]
    · cases ls with
      | none =>
        unfold advanceLine
        simp only [parsedStart, parsedEnd, Bool.and_eq_true, decide_eq_true_eq]
        rw [if_neg (by omega)]
      | some s =>
        unfold advanceLine
        simp only [parsedStart, parsedEnd, Bool.and_eq_true, decide_eq_true_eq]
        rw [if_neg (by omega)]

/-- Witness for C4 at concrete inputs. -/
theorem c4_advance_rule_witness : advanceLine 9 (some 3) (some 6) = 2 :=
  ((c4_advance_rule 9 (some 3) (some 6)).1 3 6 rfl rfl (by decide) (by decide)).1
    (by decide)

/-- C5 counterexample: the parsed bounds start=8, end=3 violate start < end
(and end is far below start), so per the claim the range should count as
absent and advancing from cursor 9 should yield 10 — but the code loops the
cursor back to 7. -/
theorem c5_counterexample :
    advanceLine 9 (some 8) (some 3) = 7 ∧ advanceLine 9 (some 8) (some 3) ≠ 10 := by
  constructor
  · decide
  · decide

/-- C5 amended: only absent or non-positive parsed bounds disable looping;
whenever both parsed bounds are positive and the incremented cursor reaches
the parsed end, the cursor resets to the 0-based start, with no validation
of start < end and no comparison against the script's line count. -/
theorem c5_amended (prev : Int) (ls le : Option Int) :
    (∀ s e, ls = some s → le = some e → s ≤ 0 ∨ e ≤ 0 →
      advanceLine prev ls le = prev + 1) ∧
    (∀ s e, ls = some s → le = some e → 1 ≤ s → 1 ≤ e → prev + 1 ≥ e →
      advanceLine prev ls le = s - 1) := by
  constructor
  · rintro s e rfl rfl h
    unfold advanceLine
    simp only [parsedStart, parsedEnd, Bool.and_eq_true, decide_eq_true_eq]
    rw [if_neg (by omega)]
  · rintro s e rfl rfl hs he h
    unfold advanceLine
    simp only [parsedStart, parsedEnd, Bool.and_eq_true, decide_eq_true_eq]
    rw [if_pos (by omega)]

/-- Witness for C5's amended statement at concrete inputs. -/
theorem c5_amended_witness : advanceLine 5 (some 0) (some 6) = 6 :=
  (c5_amended 5 (some 0) (some 6)).1 0 6 rfl rfl (Or.inl (by decide))

/-! ## Claim theorem: settings round-trip (C6) -/

/-- C6 (code bug): UI volume 0 (the slider minimum, i.e. mute) is saved as
0 but restored as 1, because the load effect fills defaults with `||`,
which replaces every falsy value — the number 0 included — rather than only
missing fields; the round-trip therefore loses the volume field. -/
theorem c6_volume_zero_lost :
    (loadSettings (saveSettings
      { script := "HAMLET: To be", pronunciations := "",
        selectedCharacter := "HAMLET", characterVoices := [],
        speechRate := 1, pitch := 1, volume := 0, selectedLang := "en-US",
        isAccuracyCheckEnabled := true, practiceMode := "dialogue",
        isRecordAndPlaybackEnabled := true, loopStartLine := "",
        loopEndLine := "" })).volume = 1 ∧ (0 : Rat) ≠ 1 := by
  constructor
  · rfl
  · norm_num

/-! ## Claim theorems: recognition errors (C9) and selection update (C10) -/

/-- C9: a non-abort recognition error during a listening turn sets the
user-visible status message, and the listening-completion handling that the
provider still fires afterwards advances the turn cursor as usual and
leaves the session running. -/
theorem c9_recognition_error (st : EngineState) (err : String)
    (herr : err ≠ "aborted") (hprac : st.isPracticing = true) :
    (handleRecognitionError st err).status = errStatusMsg ∧
    (handleRecognitionEnd (handleRecognitionError st err)).currentLineIndex =
      advanceLine st.currentLineIndex st.loopStartLine st.loopEndLine ∧
    (handleRecognitionEnd (handleRecognitionError st err)).isPracticing = true := by
  unfold handleRecognitionError handleRecognitionEnd
  rw [if_pos herr]
  simp [hprac]

/-- Witness for C9 at a concrete state and error code. -/
theorem c9_recognition_error_witness :
    (handleRecognitionError
        { status := "", isPracticing := true, currentLineIndex := 4,
          loopStartLine := none, loopEndLine := none,
          recorderRecording := true } "network").status = errStatusMsg ∧
    (handleRecognitionEnd (handleRecognitionError
        { status := "", isPracticing := true, currentLineIndex := 4,
          loopStartLine := none, loopEndLine := none,
          recorderRecording := true } "network")).currentLineIndex =
      advanceLine 4 none none ∧
    (handleRecognitionEnd (handleRecognitionError
        { status := "", isPracticing := true, currentLineIndex := 4,
          loopStartLine := none, loopEndLine := none,
          recorderRecording := true } "network")).isPracticing = true :=
  c9_recognition_error
    { status := "", isPracticing := true, currentLineIndex := 4,
      loopStartLine := none, loopEndLine := none, recorderRecording := true }
    "network" (by decide) rfl

/-- Case analysis of the selection update for an arbitrary roster. -/
theorem updateSelected_cases (roster : List (List Char)) (sel : List Char) :
    (roster = [] → updateSelectedCharacter roster sel = []) ∧
    (roster ≠ [] → sel ∉ roster →
      updateSelectedCharacter roster sel = roster.headD []) ∧
    (sel ∈ roster → updateSelectedCharacter roster sel = sel) := by
  cases roster with
  | nil =>
    refine ⟨fun _ => rfl, fun h => absurd rfl h, fun h => absurd h (by simp)⟩
  | cons a rest =>
    by_cases hmem : sel ∈ a :: rest
    · refine ⟨fun h => by simp at h, fun _ h => absurd hmem h, fun _ => ?_⟩
      simp [updateSelectedCharacter, hmem]
    · refine ⟨fun h => by simp at h, fun _ _ => ?_, fun h => absurd h hmem⟩
      simp [updateSelectedCharacter, hmem]

/-- C10: after a re-parse, the selected character stays consistent with the
derived roster: a non-empty roster not containing the old selection forces
the roster's first entry, an empty roster clears the selection, a roster
containing the selection keeps it — so the selection is a roster member
whenever the roster is non-empty. -/
theorem c10_selected_character (text : String) (sel : List Char) :
    ((parseScript text).roster ≠ [] →
      updateSelectedCharacter (parseScript text).roster sel ∈
        (parseScript text).roster) ∧
    ((parseScript text).roster ≠ [] → sel ∉ (parseScript text).roster →
      updateSelectedCharacter (parseScript text).roster sel =
        (parseScript text).roster.headD []) ∧
    ((parseScript text).roster = [] →
      updateSelectedCharacter (parseScript text).roster sel = []) ∧
    (sel ∈ (parseScript text).roster →
      updateSelectedCharacter (parseScript text).roster sel = sel) := by
  obtain ⟨h1, h2, h3⟩ := updateSelected_cases (parseScript text).roster sel
  refine ⟨?_, h2, h1, h3⟩
  intro hne
  by_cases hmem : sel ∈ (parseScript text).roster
  · rw [h3 hmem]; exact hmem
  · rw [h2 hne hmem]
    cases hr : (parseScript text).roster with
    | nil => exact absurd hr hne
    | cons a rest => simp

/-- Witness for C10 at a concrete script and selection. -/
theorem c10_selected_character_witness :
    updateSelectedCharacter (parseScript "ANN: hi\nBEN: yo").roster "BEN".data =
      "BEN".data :=
  (c10_selected_character "ANN: hi\nBEN: yo" "BEN".data).2.2.2 (by decide)

/-! ## Claim theorems: script parsing (C1) -/

theorem jsSetFold_eq (l : List (List Char)) :
    ∀ acc : List (List Char),
      l.foldl (fun a x => if x ∈ a then a else a ++ [x]) acc
        = acc ++ firstDedup (l.filter (fun y => decide (y ∉ acc))) := by
  induction l with
  | nil => intro acc; simp [firstDedup]
  | cons x l ih =>
    intro acc
    simp only [List.foldl_cons, List.filter_cons]
    by_cases hx : x ∈ acc
    · rw [if_pos hx]
      have hd : decide (x ∉ acc) = false := by simp [hx]
      rw [hd]
      simpa using ih acc
    · rw [if_neg hx]
      have hd : decide (x ∉ acc) = true := by simp [hx]
      rw [hd]
      simp only [if_true]
      rw [ih (acc ++ [x])]
      have hfd : firstDedup (x :: l.filter (fun y => decide (y ∉ acc))) =
          x :: firstDedup ((l.filter (fun y => decide (y ∉ acc))).filter
            (fun y => y != x)) := by
        rw [firstDedup]
      rw [hfd]
      have hff : (l.filter (fun y => decide (y ∉ acc))).filter (fun y => y != x) =
          l.filter (fun y => decide (y ∉ acc ++ [x])) := by
        rw [List.filter_filter]
        apply List.filter_congr
        intro y _
        by_cases h1 : y ∈ acc <;> by_cases h2 : y = x <;> simp [h1, h2]
      rw [hff, List.append_assoc, List.singleton_append]

theorem jsSetDedup_eq_firstDedup (l : List (List Char)) :
    jsSetDedup l = firstDedup l := by
  unfold jsSetDedup
  rw [jsSetFold_eq l []]
  have : l.filter (fun y => decide (y ∉ ([] : List (List Char)))) = l := by
    apply List.filter_eq_self.mpr
    intro a _
    simp
  rw [this, List.nil_append]

theorem mem_firstDedup : ∀ (l : List (List Char)) (a : List Char),
    a ∈ firstDedup l ↔ a ∈ l := by
  intro l
  induction l using firstDedup.induct with
  | case1 => intro a; rw [firstDedup]
  | case2 x l ih =>
    intro a
    rw [firstDedup]
    constructor
    · intro h
      rcases List.mem_cons.mp h with h | h
      · exact h ▸ List.mem_cons_self _ _
      · have := (ih a).mp h
        exact List.mem_cons_of_mem _ (List.mem_filter.mp this).1
    · intro h
      rcases List.mem_cons.mp h with h | h
      · exact h ▸ List.mem_cons_self _ _
      · by_cases hax : a = x
        · exact hax ▸ List.mem_cons_self _ _
        · refine List.mem_cons_of_mem _ ((ih a).mpr ?_)
          exact List.mem_filter.mpr ⟨h, by simp [hax]⟩

theorem firstDedup_nodup : ∀ l : List (List Char), (firstDedup l).Nodup := by
  intro l
  induction l using firstDedup.induct with
  | case1 => rw [firstDedup]; exact List.nodup_nil
  | case2 x l ih =>
    rw [firstDedup]
    refine List.nodup_cons.mpr ⟨?_, ih⟩
    intro hx
    have := (mem_firstDedup _ _).mp hx
    have := (List.mem_filter.mp this).2
    simp at this

/-- C1: parsing is total and produces exactly one entry per trimmed
colon-containing line (in order) and none for any other line, and the
roster is the distinct character names of the parsed entries in
first-appearance order (`Array.from(new Set(...))` equals the recursive
first-appearance deduplication), without duplicates and containing exactly
the parsed characters. -/
theorem c1_parse_model (text : String) :
    (parseScript text).lines.length =
      ((splitOnChar nlChar text.data).map jsTrim).countP hasColon ∧
    (parseScript text).lines =
      (((splitOnChar nlChar text.data).map jsTrim).filter hasColon).map parseLine ∧
    (parseScript text).roster =
      firstDedup ((parseScript text).lines.map LineEntry.character) ∧
    (parseScript text).roster.Nodup ∧
    ∀ ch, ch ∈ (parseScript text).roster ↔
      ch ∈ (parseScript text).lines.map LineEntry.character := by
  refine ⟨?_, rfl, ?_, ?_, ?_⟩
  · show (List.map parseLine _).length = _
    rw [List.length_map]
    exact (List.countP_eq_length_filter _ _).symm
  · exact jsSetDedup_eq_firstDedup _
  · show (jsSetDedup _).Nodup
    rw [jsSetDedup_eq_firstDedup]
    exact firstDedup_nodup _
  · intro ch
    show ch ∈ jsSetDedup _ ↔ _
    rw [jsSetDedup_eq_firstDedup]
    exact mem_firstDedup _ _

/-! ## Claim theorems: the structured line pattern (C7) -/

theorem takeWhile_append_stop (p : Char → Bool) :
    ∀ (w : List Char) (x : Char) (r : List Char),
      (∀ c ∈ w, p c = true) → p x = false →
      (w ++ x :: r).takeWhile p = w := by
  intro w
  induction w with
  | nil =>
    intro x r _ hx
    simp [List.takeWhile_cons, hx]
  | cons a w ih =>
    intro x r hw hx
    have ha : p a = true := hw a (List.mem_cons_self _ _)
    simp only [List.cons_append, List.takeWhile_cons, ha, if_true]
    rw [ih x r (fun c hc => hw c (List.mem_cons_of_mem _ hc)) hx]

theorem dropWhile_append_stop (p : Char → Bool) :
    ∀ (w : List Char) (x : Char) (r : List Char),
      (∀ c ∈ w, p c = true) → p x = false →
      (w ++ x :: r).dropWhile p = x :: r := by
  intro w
  induction w with
  | nil =>
    intro x r _ hx
    simp [List.dropWhile_cons, hx]
  | cons a w ih =>
    intro x r hw hx
    have ha : p a = true := hw a (List.mem_cons_self _ _)
    simp only [List.cons_append, List.dropWhile_cons, ha, if_true]
    exact ih x r (fun c hc => hw c (List.mem_cons_of_mem _ hc)) hx

theorem dropWhile_append_all (p : Char → Bool) :
    ∀ (w : List Char) (r : List Char), (∀ c ∈ w, p c = true) →
      (w ++ r).dropWhile p = r.dropWhile p := by
  intro w
  induction w with
  | nil => intro r _; rfl
  | cons a w ih =>
    intro r hw
    have ha : p a = true := hw a (List.mem_cons_self _ _)
    simp only [List.cons_append, List.dropWhile_cons, ha, if_true]
    exact ih r (fun c hc => hw c (List.mem_cons_of_mem _ hc))

theorem dropWhile_idem (p : Char → Bool) (l : List Char) :
    (l.dropWhile p).dropWhile p = l.dropWhile p := by
  induction l with
  | nil => rfl
  | cons a l ih =>
    by_cases ha : p a = true
    · simp only [List.dropWhile_cons, ha, if_true]
      exact ih
    · have ha' : p a = false := by
        cases h : p a
        · rfl
        · exact absurd h ha
      simp [List.dropWhile_cons, ha']

theorem jsTrim_dropWhile (l : List Char) :
    jsTrim (l.dropWhile isJsSpace) = jsTrim l := by
  unfold jsTrim
  rw [dropWhile_idem]

/-- The structured regex branch on a line assembled as
`TOKEN : sp1 ( DIR ) sp2 DIA` with a token of class characters, whitespace
runs `sp1`/`sp2`, and a direction free of `)`. -/
theorem lineRegexMatch_structured (tok sp1 dir sp2 dia : List Char)
    (htok : tok ≠ []) (hcls : ∀ c ∈ tok, lineTokenChar c = true)
    (hsp1 : ∀ c ∈ sp1, isJsSpace c = true) (hsp2 : ∀ c ∈ sp2, isJsSpace c = true)
    (hdir : ∀ c ∈ dir, c ≠ ')') :
    lineRegexMatch (tok ++ ':' :: (sp1 ++ '(' :: (dir ++ ')' :: (sp2 ++ dia)))) =
      some { character := upperStr (jsTrim tok), dialogue := jsTrim dia,
             direction := jsTrim dir } := by
  have ht : (tok ++ ':' :: (sp1 ++ '(' :: (dir ++ ')' :: (sp2 ++ dia)))).takeWhile
      lineTokenChar = tok :=
    takeWhile_append_stop _ tok ':' _ hcls (by decide)
  have hie : tok.isEmpty = false := by
    cases tok with
    | nil => exact absurd rfl htok
    | cons a w => rfl
  simp only [lineRegexMatch, ht, hie, Bool.false_eq_true, if_false, List.drop_left]
  rw [dropWhile_append_stop isJsSpace sp1 '(' _ hsp1 (by decide)]
  have hcont : (dir ++ ')' :: (sp2 ++ dia)).contains ')' = true := by
    simp
  have hdir' : ∀ c ∈ dir, (c != ')') = true := by
    intro c hc
    simpa using hdir c hc
  simp only [hcont, eq_self_iff_true, if_true]
  rw [takeWhile_append_stop (fun c => c != ')') dir ')' _ hdir' (by decide),
    dropWhile_append_stop (fun c => c != ')') dir ')' _ hdir' (by decide),
    List.tail_cons, dropWhile_append_all isJsSpace sp2 _ hsp2,
    jsTrim_dropWhile]

/-- C7 counterexample: the token class is case-sensitive, so the lowercase
line "bob: (wave) hi" does not match the structured pattern; the fallback
produces an empty direction and keeps the parenthetical inside the
dialogue, not the claimed direction "wave" with dialogue "hi". -/
theorem c7_counterexample :
    parseLine "bob: (wave) hi".data =
      { character := "BOB".data, dialogue := "(wave) hi".data, direction := [] } ∧
    parseLine "bob: (wave) hi".data ≠
      { character := "BOB".data, dialogue := "hi".data, direction := "wave".data } := by
  constructor
  · decide
  · decide

/-- C7 amended: the structured pattern applies to character tokens drawn
from the case-SENSITIVE class of uppercase letters, digits, whitespace,
underscore, apostrophe and hyphen (lines whose token contains lowercase
letters take the fallback instead); for such a token followed by a
parenthetical direction and dialogue, parsing yields the uppercased trimmed
token, the trimmed direction from the parenthetical, and the trimmed
dialogue with the parenthetical removed. -/
theorem c7_amended (tok sp1 dir sp2 dia : List Char)
    (htok : tok ≠ []) (hcls : ∀ c ∈ tok, lineTokenChar c = true)
    (hsp1 : ∀ c ∈ sp1, isJsSpace c = true) (hsp2 : ∀ c ∈ sp2, isJsSpace c = true)
    (hdir : ∀ c ∈ dir, c ≠ ')')
    (_hterm : ∀ c ∈ dir ++ dia, isLineTerm c = false) :
    parseLine (tok ++ ':' :: (sp1 ++ '(' :: (dir ++ ')' :: (sp2 ++ dia)))) =
      { character := upperStr (jsTrim tok), dialogue := jsTrim dia,
        direction := jsTrim dir } := by
  unfold parseLine
  rw [lineRegexMatch_structured tok sp1 dir sp2 dia htok hcls hsp1 hsp2 hdir]
  rfl

/-- Witness for C7's amended statement on the spec's own example line. -/
theorem c7_amended_witness :
    parseLine ("HAMLET".data ++ ':' :: ([' '] ++ '(' ::
        ("To himself".data ++ ')' :: ([' '] ++ "To be, or not to be...".data)))) =
      { character := upperStr (jsTrim "HAMLET".data),
        dialogue := jsTrim "To be, or not to be...".data,
        direction := jsTrim "To himself".data } :=
  c7_amended "HAMLET".data [' '] "To himself".data [' ']
    "To be, or not to be...".data (by decide) (by decide) (by decide) (by decide)
    (by decide) (by decide)

/-! ## Claim theorems: whole-word pronunciation substitution (C8) -/

theorem toNat_ofNat_of_lt {n : Nat} (h : n < 55296) : (Char.ofNat n).toNat = n := by
  have hv : n.isValidChar := Or.inl h
  unfold Char.ofNat
  rw [dif_pos hv]
  rfl

theorem toNat_toLower (c : Char) :
    (Char.toLower c).toNat =
      if 65 ≤ c.toNat ∧ c.toNat ≤ 90 then c.toNat + 32 else c.toNat := by
  unfold Char.toLower
  split
  · next h =>
    rw [if_pos h]
    exact toNat_ofNat_of_lt (by omega)
  · next h =>
    rw [if_neg h]

theorem isWordCharJs_toLower (c : Char) :
    isWordCharJs (Char.toLower c) = isWordCharJs c := by
  unfold isWordCharJs
  rw [toNat_toLower, Bool.eq_iff_iff]
  split
  · next h =>
    simp only [Bool.or_eq_true, Bool.and_eq_true, decide_eq_true_eq, beq_iff_eq]
    omega
  · next h =>
    simp only [Bool.or_eq_true, Bool.and_eq_true, decide_eq_true_eq, beq_iff_eq]

theorem word_ne_dot {p : Char} (hp : isWordCharJs p = true) : (p == '.') = false := by
  cases h : p == '.'
  · rfl
  · rw [beq_iff_eq] at h
    subst h
    exact absurd hp (by decide)

theorem patCharMatches_word_nonword {p c : Char} (hp : isWordCharJs p = true)
    (hc : isWordCharJs c = false) : patCharMatches p c = false := by
  unfold patCharMatches
  rw [word_ne_dot hp]
  simp only [Bool.false_eq_true, if_false]
  cases h : p.toLower == c.toLower
  · rfl
  · rw [beq_iff_eq] at h
    have h1 : isWordCharJs p.toLower = true := by rw [isWordCharJs_toLower, hp]
    have h2 : isWordCharJs c.toLower = false := by rw [isWordCharJs_toLower, hc]
    rw [h] at h1
    rw [h1] at h2
    simp at h2

theorem isWordOpt_getLast {w : List Char} (hw : ∀ c ∈ w, isWordCharJs c = true)
    (hne : w ≠ []) : isWordOpt w.getLast? = true := by
  rw [List.getLast?_eq_getLast w hne]
  exact hw _ (List.getLast_mem hne)

theorem matchesAt_length_le {pat : List Char}
    (hpat : ∀ p ∈ pat, isWordCharJs p = true) :
    ∀ (w r : List Char), isWordOpt r.head? = false →
      matchesAt pat (w ++ r) = true → pat.length ≤ w.length := by
  induction pat with
  | nil => intro w r _ _; simp
  | cons p ps ih =>
    intro w r hr hm
    cases w with
    | nil =>
      exfalso
      cases r with
      | nil => simp [matchesAt] at hm
      | cons c cs =>
        simp only [List.nil_append] at hm
        unfold matchesAt at hm
        have hc : isWordCharJs c = false := by simpa [isWordOpt] using hr
        rw [patCharMatches_word_nonword (hpat p (List.mem_cons_self _ _)) hc] at hm
        simp at hm
    | cons a w' =>
      simp only [List.cons_append] at hm
      unfold matchesAt at hm
      rw [Bool.and_eq_true] at hm
      have := ih (fun q hq => hpat q (List.mem_cons_of_mem _ hq)) w' r hr hm.2
      simp only [List.length_cons]
      omega

theorem matchesAt_of_lower_eq {pat : List Char}
    (hpat : ∀ p ∈ pat, isWordCharJs p = true) :
    ∀ (w r : List Char), lowerStr pat = lowerStr w →
      matchesAt pat (w ++ r) = true := by
  induction pat with
  | nil => intro w r _; rfl
  | cons p ps ih =>
    intro w r h
    cases w with
    | nil => exact absurd h (by simp [lowerStr])
    | cons c w' =>
      simp only [lowerStr, List.map_cons, List.cons.injEq] at h
      simp only [List.cons_append]
      unfold matchesAt
      rw [Bool.and_eq_true]
      constructor
      · unfold patCharMatches
        rw [word_ne_dot (hpat p (List.mem_cons_self _ _))]
        simp [h.1]
      · exact ih (fun q hq => hpat q (List.mem_cons_of_mem _ hq)) w' r h.2

theorem lower_eq_of_matchesAt {pat : List Char}
    (hpat : ∀ p ∈ pat, isWordCharJs p = true) :
    ∀ (w r : List Char), pat.length = w.length → matchesAt pat (w ++ r) = true →
      lowerStr pat = lowerStr w := by
  induction pat with
  | nil =>
    intro w r hl _
    cases w with
    | nil => rfl
    | cons c w' => simp at hl
  | cons p ps ih =>
    intro w r hl hm
    cases w with
    | nil => simp at hl
    | cons c w' =>
      simp only [List.cons_append] at hm
      unfold matchesAt at hm
      rw [Bool.and_eq_true] at hm
      have h1 : p.toLower = c.toLower := by
        have hmc := hm.1
        unfold patCharMatches at hmc
        rw [word_ne_dot (hpat p (List.mem_cons_self _ _))] at hmc
        simp only [Bool.false_eq_true, if_false, beq_iff_eq] at hmc
        exact hmc
      have h2 := ih (fun q hq => hpat q (List.mem_cons_of_mem _ hq)) w' r
        (by simpa using hl) hm.2
      simp only [lowerStr, List.map_cons, List.cons.injEq]
      exact ⟨h1, h2⟩

theorem scanInsideWord (k0 : Char) (ks val : List Char) :
    ∀ (w r : List Char) (p : Char), (∀ c ∈ w, isWordCharJs c = true) →
      isWordCharJs p = true →
      replaceScan k0 ks val (some p) (w ++ r) =
        w ++ replaceScan k0 ks val (some (w.getLastD p)) r := by
  intro w
  induction w with
  | nil => intro r p _ _; rfl
  | cons a w' ih =>
    intro r p hw hp
    have hb : boundaryB (some p) (some a) = false := by
      simp [boundaryB, isWordOpt, hp, hw a (List.mem_cons_self _ _)]
    rw [List.cons_append, replaceScan, hb]
    simp only [Bool.false_and, Bool.and_false, Bool.false_eq_true, if_false]
    rw [ih r a (fun c hc => hw c (List.mem_cons_of_mem _ hc))
      (hw a (List.mem_cons_self _ _))]
    rw [List.getLastD_cons]
    rfl

theorem scanStepNonWord (k0 : Char) (ks val : List Char)
    (hk0 : isWordCharJs k0 = true) (prev : Option Char) (d : Char)
    (rest : List Char) (hd : isWordCharJs d = false) :
    replaceScan k0 ks val prev (d :: rest) =
      d :: replaceScan k0 ks val (some d) rest := by
  rw [replaceScan]
  have hm : matchesAt (k0 :: ks) (d :: rest) = false := by
    unfold matchesAt
    rw [patCharMatches_word_nonword hk0 hd, Bool.false_and]
  rw [hm]
  simp only [Bool.false_and, Bool.false_eq_true, if_false]

theorem scanWordBoundary (k0 : Char) (ks val : List Char)
    (hk : ∀ p ∈ k0 :: ks, isWordCharJs p = true) :
    ∀ (w r : List Char) (prev : Option Char),
      w ≠ [] → (∀ c ∈ w, isWordCharJs c = true) →
      isWordOpt prev = false → isWordOpt r.head? = false →
      replaceScan k0 ks val prev (w ++ r) =
        (if lowerStr w = lowerStr (k0 :: ks) then val else w) ++
          replaceScan k0 ks val w.getLast? r := by
  intro w r prev hne hw hprev hr
  obtain ⟨c, w', rfl⟩ : ∃ c w', w = c :: w' := by
    cases w with
    | nil => exact absurd rfl hne
    | cons c w' => exact ⟨c, w', rfl⟩
  have hcw : isWordCharJs c = true := hw c (List.mem_cons_self _ _)
  have hbefore : boundaryB prev (some c) = true := by
    unfold boundaryB
    rw [hprev]
    simp [isWordOpt, hcw]
  by_cases heq : lowerStr (c :: w') = lowerStr (k0 :: ks)
  · rw [if_pos heq]
    have hlen : w'.length = ks.length := by
      have hl := congrArg List.length heq
      simp only [lowerStr, List.length_map, List.length_cons] at hl
      omega
    have hmatch : matchesAt (k0 :: ks) (c :: (w' ++ r)) = true := by
      have h := matchesAt_of_lower_eq hk (c :: w') r heq.symm
      simpa [List.cons_append] using h
    have htake : (c :: (w' ++ r)).take (ks.length + 1) = c :: w' := by
      rw [List.take_succ_cons, ← hlen, List.take_left]
    have hdrop : (c :: (w' ++ r)).drop (ks.length + 1) = r := by
      rw [List.drop_succ_cons, ← hlen, List.drop_left]
    have hafter : boundaryB ((c :: (w' ++ r)).take (ks.length + 1)).getLast?
        ((c :: (w' ++ r)).drop (ks.length + 1)).head? = true := by
      rw [htake, hdrop]
      unfold boundaryB
      rw [isWordOpt_getLast hw (by simp), hr]
      rfl
    have hdrop' : (w' ++ r).drop ks.length = r := by
      rw [← hlen, List.drop_left]
    rw [List.cons_append, replaceScan, hmatch, hbefore, hafter]
    simp only [Bool.and_self, Bool.true_and, if_true]
    rw [htake, hdrop']
  · rw [if_neg heq]
    rw [List.cons_append, replaceScan]
    have hcond : (matchesAt (k0 :: ks) (c :: (w' ++ r)) && boundaryB prev (some c) &&
          boundaryB ((c :: (w' ++ r)).take (ks.length + 1)).getLast?
            ((c :: (w' ++ r)).drop (ks.length + 1)).head?) = false := by
      cases hm : matchesAt (k0 :: ks) (c :: (w' ++ r)) with
      | false => rw [Bool.false_and, Bool.false_and]
      | true =>
        have hm' : matchesAt (k0 :: ks) ((c :: w') ++ r) = true := by
          simpa [List.cons_append] using hm
        have hle : (k0 :: ks).length ≤ (c :: w').length :=
          matchesAt_length_le hk (c :: w') r hr hm'
        rcases Nat.lt_or_ge ks.length w'.length with hlt | hge
        · have hca : (c :: (w' ++ r)) = (c :: w') ++ r := by simp
          have htk : (c :: (w' ++ r)).take (ks.length + 1) =
              (c :: w').take (ks.length + 1) := by
            rw [hca, List.take_append_of_le_length (by simp; omega)]
          have hdp : (c :: (w' ++ r)).drop (ks.length + 1) =
              ((c :: w').drop (ks.length + 1)) ++ r := by
            rw [hca, List.drop_append_of_le_length (by simp; omega)]
          obtain ⟨d, ds, hd⟩ : ∃ d ds, (c :: w').drop (ks.length + 1) = d :: ds := by
            cases hdd : (c :: w').drop (ks.length + 1) with
            | nil =>
              exfalso
              have := congrArg List.length hdd
              simp only [List.length_drop, List.length_cons, List.length_nil] at this
              omega
            | cons d ds => exact ⟨d, ds, rfl⟩
          have hafter : boundaryB ((c :: (w' ++ r)).take (ks.length + 1)).getLast?
              ((c :: (w' ++ r)).drop (ks.length + 1)).head? = false := by
            rw [htk, hdp, hd]
            have h1 : isWordOpt ((c :: w').take (ks.length + 1)).getLast? = true := by
              apply isWordOpt_getLast
              · intro x hx
                exact hw x (List.take_subset _ _ hx)
              · rw [List.take_succ_cons]
                simp
            have h2 : isWordCharJs d = true := by
              apply hw
              exact List.drop_subset _ _ (hd ▸ List.mem_cons_self d ds)
            unfold boundaryB
            rw [h1]
            simp [isWordOpt, h2]
          rw [hafter, Bool.and_false]
        · have hlen : (k0 :: ks).length = (c :: w').length := by
            simp only [List.length_cons] at hle ⊢
            omega
          have := lower_eq_of_matchesAt hk (c :: w') r hlen hm'
          exact absurd this.symm heq
    rw [hcond]
    simp only [Bool.false_eq_true, if_false]
    rw [scanInsideWord k0 ks val w' r c
      (fun x hx => hw x (List.mem_cons_of_mem _ hx)) hcw]
    rw [List.getLast?_cons]
    simp [List.getLastD_eq_getLast?]

theorem scanWordsJoin (k0 : Char) (ks val : List Char)
    (hk : ∀ p ∈ k0 :: ks, isWordCharJs p = true) :
    ∀ (ws : List (List Char)) (prev : Option Char), isWordOpt prev = false →
      (∀ w ∈ ws, w ≠ [] ∧ ∀ c ∈ w, isWordCharJs c = true) →
      replaceScan k0 ks val prev (joinWords ws) =
        joinWords (ws.map fun w =>
          if lowerStr w = lowerStr (k0 :: ks) then val else w) := by
  intro ws
  induction ws with
  | nil =>
    intro prev _ _
    show replaceScan k0 ks val prev [] = _
    rw [replaceScan]
    rfl
  | cons w ws' ih =>
    intro prev hprev hws
    obtain ⟨hwne, hwword⟩ := hws w (List.mem_cons_self _ _)
    cases ws' with
    | nil =>
      have h := scanWordBoundary k0 ks val hk w [] prev hwne hwword hprev
        (by simp [isWordOpt])
      have hj : joinWords [w] = w := rfl
      rw [hj, ← List.append_nil w, h]
      have hbase : replaceScan k0 ks val w.getLast? [] = [] := by
        rw [replaceScan]
      rw [List.append_nil, hbase, List.append_nil]
      rfl
    | cons w2 ws'' =>
      have hj : joinWords (w :: w2 :: ws'') = w ++ ' ' :: joinWords (w2 :: ws'') :=
        rfl
      rw [hj]
      rw [scanWordBoundary k0 ks val hk w (' ' :: joinWords (w2 :: ws'')) prev
        hwne hwword hprev (by simp [isWordOpt]; decide)]
      rw [scanStepNonWord k0 ks val (hk k0 (List.mem_cons_self _ _)) _ ' ' _
        (by decide)]
      rw [ih (some ' ') (by decide)
        (fun x hx => hws x (List.mem_cons_of_mem _ hx))]
      rfl

/-- C8 amended: keys are spliced into the matching pattern unescaped, so
only keys made of word characters are matched verbatim; for such a key the
rewrite replaces exactly the whole words that equal the key
case-insensitively and never touches a word merely containing the key. -/
theorem c8_amended (k v : List Char) (ws : List (List Char))
    (hk1 : k ≠ []) (hk2 : ∀ c ∈ k, isWordCharJs c = true)
    (hws : ∀ w ∈ ws, w ≠ [] ∧ ∀ c ∈ w, isWordCharJs c = true) :
    applyPronunciations [(k, v)] (joinWords ws) =
      joinWords (ws.map fun w => if lowerStr w = lowerStr k then v else w) := by
  obtain ⟨k0, ks, rfl⟩ : ∃ k0 ks, k = k0 :: ks := by
    cases k with
    | nil => exact absurd rfl hk1
    | cons k0 ks => exact ⟨k0, ks, rfl⟩
  show replaceWordAll (k0 :: ks) v (joinWords ws) = _
  unfold replaceWordAll
  exact scanWordsJoin k0 ks v hk2 ws none rfl hws

/-- Witness for C8's amended statement: "Cat" is replaced case-insensitively
while "catalog", which merely contains the key, is untouched. -/
theorem c8_amended_witness :
    applyPronunciations [("cat".data, "dog".data)]
        (joinWords ["the".data, "Cat".data, "catalog".data]) =
      joinWords (["the".data, "Cat".data, "catalog".data].map fun w =>
        if lowerStr w = lowerStr "cat".data then "dog".data else w) :=
  c8_amended "cat".data "dog".data ["the".data, "Cat".data, "catalog".data]
    (by decide) (by decide) (by decide)

/-- C8 counterexample: the key "a.c" (with a regex metacharacter) rewrites
the dialogue "abc" to "X" even though the key never occurs in it — the
interpolated pattern `\ba.c\b` treats `.` as a wildcard, so the rewrite is
not limited to occurrences of the key. -/
theorem c8_counterexample :
    applyPronunciations (buildPronunciationMap "a.c=X") "abc".data = "X".data ∧
    ¬ "a.c".data <:+: "abc".data ∧ "X".data ≠ "abc".data := by
  refine ⟨?_, by decide, by decide⟩
  show replaceScan 'a' ['.', 'c'] ['X'] none ['a', 'b', 'c'] = ['X']
  rw [replaceScan, if_pos (by decide)]
  have h2 : replaceScan 'a' ['.', 'c'] ['X']
      ((('a' :: ['b', 'c']).take (['.', 'c'].length + 1)).getLast?)
      (['b', 'c'].drop (['.', 'c'] : List Char).length) = [] := by
    show replaceScan 'a' ['.', 'c'] ['X'] (some 'c') [] = []
    rw [replaceScan]
  rw [h2]
  rfl
